import Mathlib

namespace HayateViewer

/-! ## L2 pixel cache (`app/core/cache.py`, class `ImageCache`)

A decoded page bitmap is modelled by the byte length of its pixel buffer
(`len(value.tobytes())`), together with the flag consulted downstream by
`numpy_to_qimage`.  The `OrderedDict` is modelled as an association list
whose front is the least-recently-used entry and whose back is the most
recently used one.  Byte counters are modelled as `Int`, matching Python's
unbounded integers (the counter could in principle be decremented below
zero if the bookkeeping were wrong).  Cache keys of `ImageCache` are page
indices (`int` in every call site), so keys are modelled as `Int`. -/

structure PImage where
  bytes : Nat
  qok : Bool := true
deriving DecidableEq, Repr

structure ImageCache where
  cache : List (Int × PImage)
  current_size : Int
  max_size : Int
  max_cache_size : Int
  min_cache_size : Int
  dynamic_resizing : Bool
deriving DecidableEq, Repr

def sumBytes (l : List (Int × PImage)) : Int :=
  (l.map (fun e => (e.2.bytes : Int))).sum

def keysOf (l : List (Int × PImage)) : List Int :=
  l.map Prod.fst

/-- Removing the entry of a key from the ordered dict (`del self.cache[key]`). -/
def eraseKey (l : List (Int × PImage)) (k : Int) : List (Int × PImage) :=
  l.filter (fun e => e.1 != k)

/-- The `while self.current_size + image_size > self.max_size:
popitem(last=False)` loop of `ImageCache.set`.  Returns the remaining
entries, the updated byte counter and a flag telling whether the loop
popped from an empty dict (where Python raises `KeyError`, leaving the
object in the returned state and aborting the insertion). -/
def evictForNeed (need cap : Int) : List (Int × PImage) → Int → List (Int × PImage) × Int × Bool
  | [], size => if size + need > cap then ([], size, true) else ([], size, false)
  | e :: rest, size =>
    if size + need > cap then evictForNeed need cap rest (size - (e.2.bytes : Int))
    else (e :: rest, size, false)

/-- The `while self.current_size > self.max_size: popitem(last=False)` loop
of `ImageCache.set_max_size` and `ImageCache.adjust_cache_size`. -/
def evictToCap (cap : Int) : List (Int × PImage) → Int → List (Int × PImage) × Int × Bool
  | [], size => if size > cap then ([], size, true) else ([], size, false)
  | e :: rest, size =>
    if size > cap then evictToCap cap rest (size - (e.2.bytes : Int))
    else (e :: rest, size, false)

/-- The `if key in self.cache: ... del self.cache[key]` step of
`ImageCache.set`: remove an existing entry for the key and subtract its
bytes from the counter. -/
def removeExisting (c : ImageCache) (key : Int) : List (Int × PImage) × Int :=
  match c.cache.lookup key with
  | some old => (eraseKey c.cache key, c.current_size - (old.bytes : Int))
  | none => (c.cache, c.current_size)

/-- `ImageCache.set` (cache.py lines 35-62).  Oversize bitmaps are rejected;
an existing entry for the key is removed (and un-counted) first; then LRU
entries are popped until the new bitmap fits; finally the entry is appended
at the most-recent end (`move_to_end` is a no-op there).  When the pop loop
would pop from an empty dict, the `KeyError` aborts the insertion and the
object keeps the partially evicted state. -/
def ImageCache.set (c : ImageCache) (key : Int) (v : PImage) : ImageCache :=
  let image_size : Int := v.bytes
  if image_size > c.max_size then c
  else
    let s1 := removeExisting c key
    let r := evictForNeed image_size c.max_size s1.1 s1.2
    if r.2.2 then { c with cache := r.1, current_size := r.2.1 }
    else { c with cache := r.1 ++ [(key, v)], current_size := r.2.1 + image_size }

/-- Whether a key lies in the half-open range `[start, stop)`. -/
def inRange (start stop k : Int) : Bool :=
  decide (start ≤ k) && decide (k < stop)

/-- `ImageCache.evict_outside_range` (cache.py lines 64-78).  Every key
outside `[start, stop)` is removed and its bytes un-counted.  (The
`isinstance(k, int)` guard is vacuous here because all keys are page
indices.) -/
def ImageCache.evict_outside_range (c : ImageCache) (start stop : Int) : ImageCache :=
  let evicted := c.cache.filter (fun e => !(inRange start stop e.1))
  { c with cache := c.cache.filter (fun e => inRange start stop e.1),
           current_size := c.current_size - sumBytes evicted }

/-- `ImageCache.__delitem__` (cache.py lines 96-102). -/
def ImageCache.delitem (c : ImageCache) (key : Int) : ImageCache :=
  match c.cache.lookup key with
  | some old =>
    { c with cache := eraseKey c.cache key, current_size := c.current_size - (old.bytes : Int) }
  | none => c

/-- `ImageCache.clear` (cache.py lines 89-94). -/
def ImageCache.clear (c : ImageCache) : ImageCache :=
  if c.cache.length > 0 then { c with cache := [], current_size := 0 } else c

/-- `ImageCache.set_max_size` (cache.py lines 104-115).  The configured
maximum `max_cache_size` becomes `new_size_mb * 1024 * 1024`; the
*effective* capacity `max_size` is updated only when dynamic resizing is
disabled; then LRU entries are popped while the byte counter exceeds the
effective capacity. -/
def ImageCache.set_max_size (c : ImageCache) (new_size_mb : Int) : ImageCache :=
  let mcs := new_size_mb * 1024 * 1024
  let ms := if c.dynamic_resizing then c.max_size else mcs
  let r := evictToCap ms c.cache c.current_size
  { c with max_cache_size := mcs, max_size := ms, cache := r.1, current_size := r.2.1 }

/-- `ImageCache.adjust_cache_size` (cache.py lines 117-135).  `target_size`
stands for `int(psutil.virtual_memory().available * 0.5)`, which the model
takes as a parameter. -/
def ImageCache.adjust_cache_size (c : ImageCache) (target_size : Int) : ImageCache :=
  if c.dynamic_resizing then
    let new_max := max c.min_cache_size (min target_size c.max_cache_size)
    let r := evictToCap new_max c.cache c.current_size
    { c with max_size := new_max, cache := r.1, current_size := r.2.1 }
  else c

/-- Bookkeeping invariant of the L2 cache: the byte counter equals the sum
of the stored entries' byte sizes, and keys are distinct (an
`OrderedDict` cannot hold a key twice). -/
def SizeInv (c : ImageCache) : Prop :=
  c.current_size = sumBytes c.cache ∧ (keysOf c.cache).Nodup

/-- Capacity invariant of the L2 cache: the byte counter is within the
effective capacity, or the cache is empty. -/
def CapInv (c : ImageCache) : Prop :=
  c.current_size ≤ c.max_size ∨ c.cache = []

instance (c : ImageCache) : Decidable (SizeInv c) := by
  unfold SizeInv; infer_instance

instance (c : ImageCache) : Decidable (CapInv c) := by
  unfold CapInv; infer_instance

/-- The operations of claim C1: insert, range eviction, capacity change. -/
inductive L2Op
  | set (key : Int) (v : PImage)
  | evict_outside (start stop : Int)
  | set_capacity (mb : Int)
deriving DecidableEq, Repr

def applyL2Op (c : ImageCache) : L2Op → ImageCache
  | .set key v => c.set key v
  | .evict_outside s e => c.evict_outside_range s e
  | .set_capacity mb => c.set_max_size mb

/-- All state-changing operations of `ImageCache`, for claim C10. -/
inductive L2OpX
  | set (key : Int) (v : PImage)
  | evict_outside (start stop : Int)
  | delitem (key : Int)
  | clear
  | set_capacity (mb : Int)
  | adjust (target : Int)
deriving DecidableEq, Repr

def applyL2OpX (c : ImageCache) : L2OpX → ImageCache
  | .set key v => c.set key v
  | .evict_outside s e => c.evict_outside_range s e
  | .delitem k => c.delitem k
  | .clear => c.clear
  | .set_capacity mb => c.set_max_size mb
  | .adjust t => c.adjust_cache_size t

/-- The conclusion of claim C1 at an initial L2 state `c`: along every
sequence of insert / range-eviction / capacity-change operations the stored
bytes stay within the effective capacity (or the cache is empty); an
oversize insert is rejected unchanged; a fitting insert evicts LRU entries
until the bitmap fits and appends the entry at the most-recent end. -/
def C1Concl (c : ImageCache) : Prop :=
  (∀ ops : List L2Op,
    sumBytes ((ops.foldl applyL2Op c).cache) ≤ (ops.foldl applyL2Op c).max_size ∨
      (ops.foldl applyL2Op c).cache = []) ∧
  (∀ k v, (v.bytes : Int) > c.max_size → c.set k v = c) ∧
  (∀ k v, (v.bytes : Int) ≤ c.max_size →
    ∃ rest, (c.set k v).cache = rest ++ [(k, v)] ∧
      sumBytes rest + (v.bytes : Int) ≤ c.max_size)

def imgW : ImageCache :=
  { cache := [(0, { bytes := 3 })], current_size := 3, max_size := 100,
    max_cache_size := 100, min_cache_size := 0, dynamic_resizing := false }

/-- The conclusion of claim C10 at an initial L2 state `c`: along every
sequence of `ImageCache` operations the byte counter equals the sum of the
stored entries' byte sizes and is never negative. -/
def C10Concl (c : ImageCache) : Prop :=
  ∀ ops : List L2OpX,
    (ops.foldl applyL2OpX c).current_size = sumBytes (ops.foldl applyL2OpX c).cache ∧
    0 ≤ (ops.foldl applyL2OpX c).current_size

def imgC8 : ImageCache :=
  { cache := [(0, { bytes := 50 })], current_size := 50, max_size := 100,
    max_cache_size := 200, min_cache_size := 0, dynamic_resizing := true }

/-! ## L1 texture cache (`app/core/cache.py`, class `TextureCache`)

Keys are the strings `'path::index'`.  A key is modelled by an identity
token `raw` (two distinct strings get distinct tokens) together with the
result `page` of `int(str(k).split('::')[-1])` — `none` when the parse
raises.  A cached value is a dict that may carry a `'texture_id'`; only
that field is ever inspected.  The `OrderedDict` is again an association
list, front = least recently used.  `app_state.current_page_index`, read
inside `_evict_if_needed`, is passed as the parameter `p`. -/

structure TKey where
  raw : Nat
  page : Option Int
deriving DecidableEq, Repr

structure TexVal where
  texture_id : Option Int
deriving DecidableEq, Repr

structure TextureCache where
  cache : List (TKey × TexVal)
  max_size : Int
  deleted_textures : List Int
  pinned_keys : List TKey
deriving DecidableEq, Repr

def tkeys (l : List (TKey × TexVal)) : List TKey :=
  l.map Prod.fst

/-- `TextureCache.pin` (cache.py lines 150-155): only a key present in the
cache is recorded as pinned. -/
def TextureCache.pin (t : TextureCache) (k : TKey) : TextureCache :=
  if k ∈ tkeys t.cache then
    if k ∈ t.pinned_keys then t else { t with pinned_keys := k :: t.pinned_keys }
  else t

/-- `TextureCache.unpin` (cache.py lines 157-161). -/
def TextureCache.unpin (t : TextureCache) (k : TKey) : TextureCache :=
  { t with pinned_keys := t.pinned_keys.filter (fun x => x != k) }

/-- `TextureCache.unpin_all` (cache.py lines 163-168). -/
def TextureCache.unpin_all (t : TextureCache) : TextureCache :=
  { t with pinned_keys := [] }

/-- `get_distance` inside `_evict_if_needed` (cache.py lines 239-246):
`none` stands for `float('inf')` on keys whose page index does not parse. -/
def get_distance (p : Int) (k : TKey) : Option Nat :=
  match k.page with
  | some i => some (i - p).natAbs
  | none => none

/-- The numeric distance used by `max(valid_keys, key=get_distance)`; only
applied to keys whose distance is finite. -/
def distVal (p : Int) (k : TKey) : Nat :=
  match k.page with
  | some i => (i - p).natAbs
  | none => 0

/-- Python's `max(iterable, key=f)`: the running best is replaced only on a
strictly greater key, so the first maximal element wins. -/
def maxBy (f : TKey → Nat) : TKey → List TKey → TKey
  | best, [] => best
  | best, y :: ys => maxBy f (if f best < f y then y else best) ys

/-- The texture-id bookkeeping of an eviction:
`if value_to_evict and 'texture_id' in value_to_evict: deleted.append(id)`. -/
def queueDeleted (v : Option TexVal) : List Int :=
  match v with
  | some val =>
    match val.texture_id with
    | some i => [i]
    | none => []
  | none => []

/-- `unpinned_keys = [k for k in self.cache if k not in self.pinned_keys]`
(cache.py line 227), in LRU order (oldest first). -/
def unpinnedKeys (t : TextureCache) : List TKey :=
  (tkeys t.cache).filter (fun k => !(t.pinned_keys.contains k))

/-- The victim selection of one `_evict_if_needed` iteration (cache.py
lines 227-259): `none` models the `break` when every cached key is pinned;
among the non-pinned keys, those with a finite distance are kept and the
first one with maximal distance wins (`max` returns the first maximum);
when no key parses, the fallback is `unpinned_keys[0]`, plain LRU. -/
def selectVictim (p : Int) (t : TextureCache) : Option TKey :=
  match unpinnedKeys t with
  | [] => none
  | u0 :: us =>
    match (u0 :: us).filter (fun k => (get_distance p k).isSome) with
    | [] => some u0
    | v0 :: vs => some (maxBy (distVal p) v0 vs)

/-- One iteration of the `while` body of `_evict_if_needed` (cache.py lines
226-269): pick the victim, pop it and queue its texture id. -/
def evictStep (p : Int) (t : TextureCache) : Option TextureCache :=
  match selectVictim p t with
  | none => none
  | some far =>
    some { t with
      cache := t.cache.filter (fun e => e.1 != far),
      deleted_textures := t.deleted_textures ++ queueDeleted (t.cache.lookup far) }

/-- The `while len(self.cache) > self.max_size` loop of `_evict_if_needed`,
with fuel; `t.cache.length` steps always suffice because every successful
step removes at least one entry. -/
def evictLoop (p : Int) : Nat → TextureCache → TextureCache
  | 0, t => t
  | fuel + 1, t =>
    if (t.cache.length : Int) > t.max_size then
      match evictStep p t with
      | some t' => evictLoop p fuel t'
      | none => t
    else t

/-- `TextureCache._evict_if_needed` (cache.py lines 222-270). -/
def TextureCache.evict_if_needed (t : TextureCache) (p : Int) : TextureCache :=
  evictLoop p t.cache.length t

/-- `TextureCache.set` (cache.py lines 177-190): an existing key is
overwritten and moved to the most-recent end without eviction; a new key is
appended and `_evict_if_needed` runs. -/
def TextureCache.set (t : TextureCache) (p : Int) (k : TKey) (v : TexVal) : TextureCache :=
  if k ∈ tkeys t.cache then
    { t with cache := (t.cache.filter (fun e => e.1 != k)) ++ [(k, v)] }
  else
    TextureCache.evict_if_needed { t with cache := t.cache ++ [(k, v)] } p

/-- `TextureCache.evict_outside_range` (cache.py lines 192-220): pinned
keys are skipped; a key whose page parses is dropped when outside
`[start, stop)`; a key that does not parse is always dropped. -/
def TextureCache.evict_outside_range (t : TextureCache) (start stop : Int) : TextureCache :=
  let keep : TKey × TexVal → Bool := fun e =>
    if t.pinned_keys.contains e.1 then true
    else
      match e.1.page with
      | some i => decide (start ≤ i) && decide (i < stop)
      | none => false
  let evicted := t.cache.filter (fun e => !(keep e))
  { t with cache := t.cache.filter keep,
           deleted_textures := t.deleted_textures ++ evicted.filterMap (fun e => e.2.texture_id) }

/-- `TextureCache.set_max_size` (cache.py lines 272-276). -/
def TextureCache.set_max_size (t : TextureCache) (p : Int) (n : Int) : TextureCache :=
  TextureCache.evict_if_needed { t with max_size := n } p

/-- `TextureCache.get_deleted_textures` (cache.py lines 283-288): returns
the pending-deletion list and clears it. -/
def TextureCache.get_deleted_textures (t : TextureCache) : List Int × TextureCache :=
  (t.deleted_textures, { t with deleted_textures := [] })

/-- `TextureCache.clear` (cache.py lines 290-300): queues every entry's
texture id for deletion, then empties the cache and the pinned set. -/
def TextureCache.clear (t : TextureCache) : TextureCache :=
  if t.cache.length > 0 then
    { t with deleted_textures := t.deleted_textures ++ t.cache.filterMap (fun e => e.2.texture_id),
             cache := [], pinned_keys := [] }
  else t

/-- The `TextureCache` operations of claim C9. -/
inductive L1Op
  | pin (k : TKey)
  | unpin (k : TKey)
  | set (p : Int) (k : TKey) (v : TexVal)
  | evict_outside (start stop : Int)
  | set_capacity (p : Int) (n : Int)
  | drain
  | clear
deriving DecidableEq, Repr

def applyL1 (t : TextureCache) : L1Op → TextureCache
  | .pin k => t.pin k
  | .unpin k => t.unpin k
  | .set p k v => t.set p k v
  | .evict_outside s e => t.evict_outside_range s e
  | .set_capacity p n => t.set_max_size p n
  | .drain => (t.get_deleted_textures).2
  | .clear => t.clear

/-! ## Prefetcher page-set computation
(`app/core/prefetcher.py`, `PrefetcherWorker._calculate_pages_for_prefetch`) -/

/-- `range(start, end + 1)` over integers: the list `start, …, end`
(empty when `end < start`). -/
def intRange (a b : Int) : List Int :=
  (List.range (b + 1 - a).toNat).map (fun (i : Nat) => a + (i : Int))

/-- `base_pages` (prefetcher.py lines 124-126): the current page, plus the
next one in spread view when it exists. -/
def basePages (current_index max_index : Int) (is_spread : Bool) : List Int :=
  [current_index] ++
    (if is_spread && decide (current_index + 1 ≤ max_index) then [current_index + 1] else [])

/-- `_calculate_pages_for_prefetch` (prefetcher.py lines 119-138): collect
the clamped windows around each base page into a set, return it sorted. -/
def calculate_pages_for_prefetch (current_index distance max_index : Int)
    (is_spread : Bool) : List Int :=
  ((basePages current_index max_index is_spread).flatMap
    (fun page => intRange (max 0 (page - distance)) (min max_index (page + distance)))).toFinset.sort
    (· ≤ ·)

/-! ## Prefetch-radius configuration
(`app/config/settings.py` lines 74-96 and
`app/core/prefetcher.py`, `PrefetcherWorker.update_prefetch_settings`) -/

/-- A JSON config value as far as the integer validation is concerned:
an `int`, some non-`int` value, or an absent key. -/
inductive JVal
  | int (v : Int)
  | nonint
  | absent
deriving DecidableEq, Repr

structure PrefetchCfg where
  max_prefetch_pages : JVal
  cpu_max_prefetch_pages : JVal
  gpu_texture_cache_size : JVal
  gpu_cache_page_count : JVal
  gpu_max_prefetch_pages : JVal
deriving DecidableEq, Repr

/-- `if not isinstance(v, int) or v < 0: v = default`. -/
def validateNonNegInt (v : JVal) (dflt : Int) : Int :=
  match v with
  | .int n => if 0 ≤ n then n else dflt
  | _ => dflt

/-- The prefetch-page part of `Settings.load_settings` (settings.py lines
74-88): legacy keys `max_prefetch_pages`, `gpu_texture_cache_size` and
`gpu_cache_page_count` migrate onto the current keys (the last one wins),
then each value is independently validated to a non-negative int with
defaults 10 (cpu) and 9 (gpu).  Returns the effective
`(cpu_max_prefetch_pages, gpu_max_prefetch_pages)`. -/
def load_prefetch_settings (c : PrefetchCfg) : Int × Int :=
  let cpu0 := match c.max_prefetch_pages with
    | .absent => c.cpu_max_prefetch_pages
    | v => v
  let gpu0 := match c.gpu_texture_cache_size with
    | .absent => c.gpu_max_prefetch_pages
    | v => v
  let gpu1 := match c.gpu_cache_page_count with
    | .absent => gpu0
    | v => v
  (validateNonNegInt cpu0 10, validateNonNegInt gpu1 9)

/-- `PrefetcherWorker.update_prefetch_settings` (prefetcher.py lines
48-59): each radius present in the incoming dict replaces the current one
verbatim; no validation or cross-clamping happens. -/
def update_prefetch_settings (cur : Int × Int) (d : Option Int × Option Int) : Int × Int :=
  (match d.1 with
   | some v => v
   | none => cur.1,
   match d.2 with
   | some v => v
   | none => cur.2)

/-! ## FileLoader fetch decision (`app/io/loader.py`, `get_image_data`) -/

inductive LoadType
  | folder
  | image
  | archive
  | unsupported
deriving DecidableEq, Repr

/-- `ExtractionStatus` (archive.py lines 198-203). -/
inductive ExtractionStatus
  | PENDING
  | RUNNING
  | COMPLETED
  | FAILED
  | CANCELLED
deriving DecidableEq, Repr

/-- `PRIORITY_DISPLAY` (constants.py). -/
def PRIORITY_DISPLAY : Int := 1

/-- `PRIORITY_PREFETCH` (constants.py). -/
def PRIORITY_PREFETCH : Int := 10

/-- The slice of `FileLoader` state that `get_image_data` consults:
the load type, the extractor status, and the set of entry names present in
the L3 byte cache. -/
structure FileLoaderSt where
  load_type : LoadType
  extraction_status : ExtractionStatus
  l3cache : List String
deriving DecidableEq, Repr

/-- What `get_image_data` does first on a call, as decided by the first
iteration of its wait loop (loader.py lines 202-229). -/
inductive FetchAction
  | ret_cached
  | ret_none
  | wait
  | fallback
deriving DecidableEq, Repr

/-- The control decision of `FileLoader.get_image_data` (loader.py lines
202-229): a cache hit returns the bytes; otherwise the call waits on the
condition variable only when this is an archive whose extractor is RUNNING
and the request has Display priority; a Prefetch request on an archive
returns `None` at once; anything else breaks out to the fallback read. -/
def get_image_data_decision (L : FileLoaderSt) (filepath : String)
    (priority : Int) : FetchAction :=
  if filepath ∈ L.l3cache then .ret_cached
  else if L.load_type = .archive ∧ L.extraction_status = .RUNNING ∧
      priority = PRIORITY_DISPLAY then .wait
  else if priority = PRIORITY_PREFETCH ∧ L.load_type = .archive then .ret_none
  else .fallback

/-! ## ImageLoaderWorker result delivery
(`app/io/loader.py`, `_on_runnable_finished`, `_on_runnable_error`,
`_on_image_decoded`, `get_next_file_loader_id`) -/

/-- `get_next_file_loader_id` (loader.py lines 24-29): increment the global
counter under the lock and return it.  Result: (returned id, new counter
value). -/
def get_next_file_loader_id (counter : Nat) : Nat × Nat :=
  (counter + 1, counter + 1)

/-- The slice of `ImageLoaderWorker` state the delivery slots touch.
`emitted_images` records the pages for which `image_loaded` fired — that
signal is the only path by which a decode result reaches the L1 texture
upload; `emitted_errors` records `error_occurred` emissions. -/
structure WorkerState where
  running : Bool
  loaderId : Option Nat
  image_files : List String
  image_cache : ImageCache
  processing_pages : List Int
  emitted_images : List Int
  emitted_errors : List (String × String)
deriving DecidableEq, Repr

/-- `_on_image_decoded` (loader.py lines 463-498): store the decoded array
in L2, emit `image_loaded` (or an error when the QImage conversion fails),
and drop the page from `processing_pages`. -/
def onImageDecoded (w : WorkerState) (decoded : Option PImage) (index : Int) : WorkerState :=
  if w.loaderId.isNone ∨ w.image_files = [] ∨
      ¬(0 ≤ index ∧ index < (w.image_files.length : Int)) then w
  else
    let filepath := w.image_files.getD index.toNat ""
    let w1 :=
      match decoded with
      | some img =>
        let w2 := { w with image_cache := w.image_cache.set index img }
        if img.qok then { w2 with emitted_images := w2.emitted_images ++ [index] }
        else { w2 with emitted_errors := w2.emitted_errors ++ [(filepath, "conversion failed")] }
      | none => w
    { w1 with processing_pages := w1.processing_pages.filter (fun i => i != index) }

/-- `_on_runnable_finished` (loader.py lines 419-433): a result whose
loader id does not match the current FileLoader (or arriving when stopped
or with no loader) only clears its page from `processing_pages`. -/
def onRunnableFinished (w : WorkerState) (decoded : Option PImage) (index : Int)
    (loader_id : Nat) : WorkerState :=
  if w.running = false ∨ w.loaderId.isNone ∨ w.loaderId ≠ some loader_id then
    { w with processing_pages := w.processing_pages.filter (fun i => i != index) }
  else onImageDecoded w decoded index

/-- `_on_runnable_error` (loader.py lines 435-448): same stale-generation
guard; a current-generation error is surfaced via `error_occurred` and
finishes through `_on_image_decoded` with no image. -/
def onRunnableError (w : WorkerState) (filepath msg : String) (index : Int)
    (loader_id : Nat) : WorkerState :=
  if w.running = false ∨ w.loaderId.isNone ∨ w.loaderId ≠ some loader_id then
    { w with processing_pages := w.processing_pages.filter (fun i => i != index) }
  else onImageDecoded { w with emitted_errors := w.emitted_errors ++ [(filepath, msg)] } none index

/-! ## Concrete states for witnesses and counterexamples -/

def kFar : TKey := { raw := 0, page := some 10 }

def kNear : TKey := { raw := 1, page := some 0 }

def texEmpty : TextureCache :=
  { cache := [], max_size := 1, deleted_textures := [], pinned_keys := [] }

def k9 : TKey := { raw := 2, page := some 0 }

def t9 : TextureCache :=
  { cache := [(k9, { texture_id := some 21 })], max_size := 5,
    deleted_textures := [], pinned_keys := [] }

def tW : TextureCache :=
  { cache := [(kNear, { texture_id := some 3 })], max_size := 1,
    deleted_textures := [], pinned_keys := [kNear] }

def loaderW : FileLoaderSt :=
  { load_type := .archive, extraction_status := .RUNNING, l3cache := [] }

def workerW : WorkerState :=
  { running := true, loaderId := some 2, image_files := ["a.png"],
    image_cache := imgW, processing_pages := [0], emitted_images := [],
    emitted_errors := [] }

def tC2 : TextureCache :=
  { cache := [(kFar, { texture_id := some 5 })], max_size := 1,
    deleted_textures := [], pinned_keys := [] }

def vC2 : TexVal := { texture_id := some 8 }

/-- The conclusion of claim C2 for an insert of a fresh key `k` into L1
state `t` with current page `p`: if the new count fits, nothing is
evicted; otherwise, when every cached key (the new one included) is
pinned the loop breaks without removing anything, and when some key is
unpinned the evicted victim is the first key with maximal distance
`|page − p|` in the LRU-ordered list of non-pinned keys (so ties go to
the oldest), and its texture id is queued for deletion. -/
def C2Concl (t : TextureCache) (p : Int) (k : TKey) (v : TexVal) : Prop :=
  ((t.cache.length + 1 : Int) ≤ t.max_size →
    (t.set p k v).cache = t.cache ++ [(k, v)]) ∧
  (t.max_size < (t.cache.length + 1 : Int) →
    (unpinnedKeys { t with cache := t.cache ++ [(k, v)] } = [] →
      (t.set p k v).cache = t.cache ++ [(k, v)]) ∧
    (∀ u0 us, unpinnedKeys { t with cache := t.cache ++ [(k, v)] } = u0 :: us →
      ∃ vic pre post,
        u0 :: us = pre ++ vic :: post ∧
        (∀ x ∈ u0 :: us, distVal p x ≤ distVal p vic) ∧
        (∀ x ∈ pre, distVal p x < distVal p vic) ∧
        (t.set p k v).cache = (t.cache ++ [(k, v)]).filter (fun e => e.1 != vic) ∧
        (t.set p k v).deleted_textures =
          t.deleted_textures ++ queueDeleted ((t.cache ++ [(k, v)]).lookup vic)))

/-- The conclusion of the amended claim C9 for a key `k` pinned in L1
state `t`: no operation except `clear` ever evicts `k`, and `clear`
queues the texture id of every cached entry — pinned ones included. -/
def C9Concl (t : TextureCache) (k : TKey) : Prop :=
  (∀ op : L1Op, op ≠ L1Op.clear → k ∈ tkeys (applyL1 t op).cache) ∧
  (∀ i : Int, (k, { texture_id := some i }) ∈ t.cache →
    i ∈ (applyL1 t L1Op.clear).deleted_textures)

/-! ### Bookkeeping lemmas for the L2 cache -/

theorem sumBytes_nil : sumBytes [] = 0 := rfl

theorem sumBytes_cons (e : Int × PImage) (l : List (Int × PImage)) :
    sumBytes (e :: l) = (e.2.bytes : Int) + sumBytes l := by
  simp [sumBytes]

theorem sumBytes_append (l1 l2 : List (Int × PImage)) :
    sumBytes (l1 ++ l2) = sumBytes l1 + sumBytes l2 := by
  simp [sumBytes]

theorem sumBytes_nonneg (l : List (Int × PImage)) : 0 ≤ sumBytes l := by
  induction l with
  | nil => simp [sumBytes]
  | cons e t ih => rw [sumBytes_cons]; positivity

theorem lookup_none_not_mem (l : List (Int × PImage)) (k : Int)
    (h : l.lookup k = none) : k ∉ keysOf l := by
  induction l with
  | nil => simp [keysOf]
  | cons e t ih =>
    by_cases hk : k = e.1
    · have hb : (k == e.1) = true := by simp [hk]
      simp [List.lookup, hb] at h
    · have hb : (k == e.1) = false := by simp [hk]
      simp only [List.lookup, hb] at h
      simp only [keysOf, List.map_cons, List.mem_cons, not_or]
      exact ⟨hk, ih h⟩

theorem eraseKey_not_mem (l : List (Int × PImage)) (k : Int)
    (h : k ∉ keysOf l) : eraseKey l k = l := by
  induction l with
  | nil => rfl
  | cons e t ih =>
    simp only [keysOf, List.map_cons, List.mem_cons, not_or] at h
    have hb : (e.1 != k) = true := by simp [bne_iff_ne]; omega
    simp only [eraseKey, List.filter_cons, hb, if_true]
    simp only [eraseKey] at ih
    rw [ih h.2]

theorem sumBytes_eraseKey (l : List (Int × PImage)) (k : Int) (old : PImage)
    (hnd : (keysOf l).Nodup) (hl : l.lookup k = some old) :
    sumBytes (eraseKey l k) = sumBytes l - (old.bytes : Int) := by
  induction l with
  | nil => simp [List.lookup] at hl
  | cons e t ih =>
    simp only [keysOf, List.map_cons, List.nodup_cons] at hnd
    by_cases hk : k = e.1
    · have hb : (k == e.1) = true := by simp [hk]
      simp only [List.lookup, hb, Option.some.injEq] at hl
      have hb2 : (e.1 != k) = false := by simp [bne_iff_ne]; omega
      simp only [eraseKey, List.filter_cons, hb2, if_false, Bool.false_eq_true]
      have hnt : eraseKey t k = t := eraseKey_not_mem t k (by rw [hk]; exact hnd.1)
      simp only [eraseKey] at hnt
      rw [hnt, sumBytes_cons, ← hl]
      ring
    · have hb : (k == e.1) = false := by simp [hk]
      simp only [List.lookup, hb] at hl
      have hb2 : (e.1 != k) = true := by simp [bne_iff_ne]; omega
      simp only [eraseKey, List.filter_cons, hb2, if_true]
      rw [sumBytes_cons]
      simp only [eraseKey] at ih
      rw [ih hnd.2 hl, sumBytes_cons]
      ring

theorem keysOf_eraseKey_sublist (l : List (Int × PImage)) (k : Int) :
    (keysOf (eraseKey l k)).Sublist (keysOf l) :=
  List.Sublist.map Prod.fst (List.filter_sublist l)

theorem not_mem_keysOf_eraseKey (l : List (Int × PImage)) (k : Int) :
    k ∉ keysOf (eraseKey l k) := by
  intro h
  simp only [keysOf, eraseKey, List.mem_map] at h
  obtain ⟨e, he, hk⟩ := h
  rw [List.mem_filter] at he
  exact absurd hk (by simpa [bne_iff_ne] using he.2)

theorem evictForNeed_sum (need cap : Int) (l : List (Int × PImage)) (size : Int)
    (h : size = sumBytes l) :
    (evictForNeed need cap l size).2.1 = sumBytes (evictForNeed need cap l size).1 := by
  induction l generalizing size with
  | nil =>
    simp only [evictForNeed]
    split <;> simp [h]
  | cons e t ih =>
    simp only [evictForNeed]
    split
    · exact ih (size - (e.2.bytes : Int)) (by rw [h, sumBytes_cons]; ring)
    · exact h

theorem evictForNeed_fits (need cap : Int) (l : List (Int × PImage)) (size : Int)
    (h : (evictForNeed need cap l size).2.2 = false) :
    (evictForNeed need cap l size).2.1 + need ≤ cap := by
  induction l generalizing size with
  | nil =>
    by_cases hc : size + need > cap
    · simp [evictForNeed, if_pos hc] at h
    · simp [evictForNeed, if_neg hc]; omega
  | cons e t ih =>
    by_cases hc : size + need > cap
    · simp only [evictForNeed, if_pos hc] at h ⊢
      exact ih _ h
    · simp [evictForNeed, if_neg hc]; omega

theorem evictForNeed_raised (need cap : Int) (l : List (Int × PImage)) (size : Int)
    (h : (evictForNeed need cap l size).2.2 = true) :
    (evictForNeed need cap l size).1 = [] ∧ (evictForNeed need cap l size).2.1 + need > cap := by
  induction l generalizing size with
  | nil =>
    by_cases hc : size + need > cap
    · simp [evictForNeed, if_pos hc]; omega
    · simp [evictForNeed, if_neg hc] at h
  | cons e t ih =>
    by_cases hc : size + need > cap
    · simp only [evictForNeed, if_pos hc] at h ⊢
      exact ih _ h
    · simp [evictForNeed, if_neg hc] at h

theorem evictForNeed_suffix (need cap : Int) (l : List (Int × PImage)) (size : Int) :
    (evictForNeed need cap l size).1 <:+ l := by
  induction l generalizing size with
  | nil => simp [evictForNeed]; split <;> simp
  | cons e t ih =>
    simp only [evictForNeed]
    split
    · exact (ih _).trans (List.suffix_cons e t)
    · exact List.suffix_rfl

theorem evictToCap_eq (cap : Int) (l : List (Int × PImage)) (size : Int) :
    evictToCap cap l size = evictForNeed 0 cap l size := by
  induction l generalizing size with
  | nil => simp [evictToCap, evictForNeed]
  | cons e t ih => simp [evictToCap, evictForNeed, ih]

theorem sumBytes_filter_split (p : Int × PImage → Bool) (l : List (Int × PImage)) :
    sumBytes (l.filter p) + sumBytes (l.filter (fun e => !(p e))) = sumBytes l := by
  induction l with
  | nil => simp [sumBytes]
  | cons e t ih =>
    by_cases hp : p e
    · simp only [List.filter_cons, hp, if_true, Bool.not_true, Bool.false_eq_true, if_false,
        sumBytes_cons]
      omega
    · simp only [List.filter_cons, hp, Bool.false_eq_true, if_false, Bool.not_false, if_true,
        sumBytes_cons]
      omega

theorem keysOf_suffix_nodup {l1 l2 : List (Int × PImage)} (hs : l1 <:+ l2)
    (h : (keysOf l2).Nodup) : (keysOf l1).Nodup :=
  ((hs.map Prod.fst).sublist.nodup h : (l1.map Prod.fst).Nodup)

theorem removeExisting_spec (c : ImageCache) (k : Int) (h : SizeInv c) :
    (removeExisting c k).2 = sumBytes (removeExisting c k).1 ∧
    (keysOf (removeExisting c k).1).Nodup ∧ k ∉ keysOf (removeExisting c k).1 := by
  obtain ⟨hsum, hnd⟩ := h
  unfold removeExisting
  rcases hl : c.cache.lookup k with _ | old
  · exact ⟨by simpa using hsum, by simpa using hnd, by simpa using lookup_none_not_mem _ _ hl⟩
  · refine ⟨?_, ?_, ?_⟩
    · simp only
      rw [sumBytes_eraseKey c.cache k old hnd hl, hsum]
    · exact ((keysOf_eraseKey_sublist c.cache k).nodup hnd : _)
    · exact not_mem_keysOf_eraseKey c.cache k

theorem set_SizeInv (c : ImageCache) (k : Int) (v : PImage) (h : SizeInv c) :
    SizeInv (c.set k v) := by
  unfold ImageCache.set
  by_cases hover : (v.bytes : Int) > c.max_size
  · simpa only [if_pos hover] using h
  · simp only [if_neg hover]
    obtain ⟨h1, h2, h3⟩ := removeExisting_spec c k h
    set s1 := removeExisting c k with hs1
    set r := evictForNeed (v.bytes : Int) c.max_size s1.1 s1.2 with hr
    have hsum : r.2.1 = sumBytes r.1 := evictForNeed_sum _ _ _ _ h1
    have hsuf : r.1 <:+ s1.1 := evictForNeed_suffix _ _ _ _
    have hnd' : (keysOf r.1).Nodup := keysOf_suffix_nodup hsuf h2
    have hkn : k ∉ keysOf r.1 := fun hmem =>
      h3 ((hsuf.map Prod.fst).sublist.subset hmem)
    by_cases hrz : r.2.2
    · simp only [if_pos hrz]
      exact ⟨hsum, hnd'⟩
    · simp only [if_neg hrz]
      constructor
      · simp only [sumBytes_append, sumBytes_cons, sumBytes_nil, hsum]
        ring
      · simp only [keysOf, List.map_append, List.map_cons, List.map_nil]
        exact List.Nodup.append hnd' (List.nodup_singleton k)
          (fun a ha hb => hkn ((List.mem_singleton.mp hb) ▸ ha))

theorem set_CapInv (c : ImageCache) (k : Int) (v : PImage) (h : CapInv c) :
    CapInv (c.set k v) := by
  unfold ImageCache.set
  by_cases hover : (v.bytes : Int) > c.max_size
  · simpa only [if_pos hover] using h
  · simp only [if_neg hover]
    set s1 := removeExisting c k with hs1
    set r := evictForNeed (v.bytes : Int) c.max_size s1.1 s1.2 with hr
    by_cases hrz : r.2.2
    · simp only [if_pos hrz]
      exact Or.inr (evictForNeed_raised _ _ _ _ hrz).1
    · simp only [if_neg hrz]
      exact Or.inl (evictForNeed_fits _ _ _ _ (by simpa using hrz))

theorem evict_outside_SizeInv (c : ImageCache) (s e : Int) (h : SizeInv c) :
    SizeInv (c.evict_outside_range s e) := by
  obtain ⟨hsum, hnd⟩ := h
  unfold ImageCache.evict_outside_range
  constructor
  · simp only
    have := sumBytes_filter_split (fun x => inRange s e x.1) c.cache
    omega
  · exact ((List.filter_sublist c.cache).map Prod.fst).nodup hnd

theorem evict_outside_CapInv (c : ImageCache) (s e : Int) (h : CapInv c) :
    CapInv (c.evict_outside_range s e) := by
  unfold ImageCache.evict_outside_range
  rcases h with h | h
  · exact Or.inl (by
      simp only
      have := sumBytes_nonneg (c.cache.filter (fun x => !(inRange s e x.1)))
      omega)
  · exact Or.inr (by simp [h])

theorem delitem_SizeInv (c : ImageCache) (k : Int) (h : SizeInv c) :
    SizeInv (c.delitem k) := by
  obtain ⟨hsum, hnd⟩ := h
  unfold ImageCache.delitem
  rcases hl : c.cache.lookup k with _ | old
  · exact ⟨hsum, hnd⟩
  · constructor
    · simp only
      rw [sumBytes_eraseKey c.cache k old hnd hl, hsum]
    · exact ((keysOf_eraseKey_sublist c.cache k).nodup hnd : _)

theorem clear_SizeInv (c : ImageCache) (h : SizeInv c) : SizeInv c.clear := by
  unfold ImageCache.clear
  split
  · exact ⟨by simp [sumBytes], by simp [keysOf]⟩
  · exact h

theorem set_max_size_SizeInv (c : ImageCache) (mb : Int) (h : SizeInv c) :
    SizeInv (c.set_max_size mb) := by
  obtain ⟨hsum, hnd⟩ := h
  unfold ImageCache.set_max_size
  dsimp only
  rw [evictToCap_eq]
  constructor
  · exact evictForNeed_sum _ _ _ _ hsum
  · exact keysOf_suffix_nodup (evictForNeed_suffix _ _ _ _) hnd

theorem set_max_size_CapInv (c : ImageCache) (mb : Int) :
    CapInv (c.set_max_size mb) := by
  unfold ImageCache.set_max_size
  dsimp only
  rw [evictToCap_eq]
  set ms := if c.dynamic_resizing then c.max_size else mb * 1024 * 1024 with hms
  set r := evictForNeed 0 ms c.cache c.current_size with hr
  by_cases hrz : r.2.2
  · exact Or.inr (evictForNeed_raised _ _ _ _ hrz).1
  · exact Or.inl (by
      have := evictForNeed_fits 0 ms c.cache c.current_size (by simpa using hrz)
      simpa using this)

theorem adjust_SizeInv (c : ImageCache) (t : Int) (h : SizeInv c) :
    SizeInv (c.adjust_cache_size t) := by
  obtain ⟨hsum, hnd⟩ := h
  unfold ImageCache.adjust_cache_size
  split
  · dsimp only
    rw [evictToCap_eq]
    exact ⟨evictForNeed_sum _ _ _ _ hsum, keysOf_suffix_nodup (evictForNeed_suffix _ _ _ _) hnd⟩
  · exact ⟨hsum, hnd⟩

/-! ### Claims C1, C10, C8 -/

theorem l2_step_good (c : ImageCache) (op : L2Op) (h : SizeInv c ∧ CapInv c) :
    SizeInv (applyL2Op c op) ∧ CapInv (applyL2Op c op) := by
  cases op with
  | set k v => exact ⟨set_SizeInv c k v h.1, set_CapInv c k v h.2⟩
  | evict_outside s e => exact ⟨evict_outside_SizeInv c s e h.1, evict_outside_CapInv c s e h.2⟩
  | set_capacity mb => exact ⟨set_max_size_SizeInv c mb h.1, set_max_size_CapInv c mb⟩

theorem l2_fold_good (c : ImageCache) (h : SizeInv c ∧ CapInv c) (ops : List L2Op) :
    SizeInv (ops.foldl applyL2Op c) ∧ CapInv (ops.foldl applyL2Op c) := by
  induction ops generalizing c with
  | nil => exact h
  | cons op rest ih => exact ih _ (l2_step_good c op h)

/-- C1: for every sequence of L2 operations `set` (insert),
`evict_outside_range` and `set_max_size` starting from a state whose byte
counter is correct and within capacity, after each operation the total
stored bytes are at most the effective capacity or the cache is empty; an
insert whose bitmap bytes exceed the capacity is rejected and leaves the
cache unchanged, and otherwise LRU entries are evicted before insertion
until `total_bytes + bitmap.bytes ≤ capacity`. -/
theorem C1_l2_capacity_invariant (c : ImageCache) (h : SizeInv c ∧ CapInv c) :
    C1Concl c := by
  refine ⟨?_, ?_, ?_⟩
  · intro ops
    obtain ⟨⟨hsum, _⟩, hcap⟩ := l2_fold_good c h ops
    rw [← hsum]
    exact hcap
  · intro k v hover
    unfold ImageCache.set
    simp only [if_pos hover]
  · intro k v hfit
    have hne : ¬((v.bytes : Int) > c.max_size) := not_lt.mpr hfit
    obtain ⟨h1, h2, h3⟩ := removeExisting_spec c k h.1
    have hsum := evictForNeed_sum (v.bytes : Int) c.max_size (removeExisting c k).1
      (removeExisting c k).2 h1
    have hrz : (evictForNeed (v.bytes : Int) c.max_size (removeExisting c k).1
        (removeExisting c k).2).2.2 = false := by
      cases hx : (evictForNeed (v.bytes : Int) c.max_size (removeExisting c k).1
        (removeExisting c k).2).2.2 with
      | false => rfl
      | true =>
        obtain ⟨hempty, hgt⟩ := evictForNeed_raised _ _ _ _ hx
        rw [hempty, sumBytes_nil] at hsum
        omega
    unfold ImageCache.set
    simp only [if_neg hne]
    simp only [hrz, Bool.false_eq_true, if_false]
    refine ⟨_, rfl, ?_⟩
    rw [← hsum]
    exact evictForNeed_fits _ _ _ _ hrz

/-- Witness for C1 at a concrete in-invariant state. -/
theorem C1_l2_capacity_invariant_witness :
    (SizeInv imgW ∧ CapInv imgW) ∧ C1Concl imgW :=
  ⟨by decide, C1_l2_capacity_invariant imgW (by decide)⟩

theorem l2x_step_size (c : ImageCache) (op : L2OpX) (h : SizeInv c) :
    SizeInv (applyL2OpX c op) := by
  cases op with
  | set k v => exact set_SizeInv c k v h
  | evict_outside s e => exact evict_outside_SizeInv c s e h
  | delitem k => exact delitem_SizeInv c k h
  | clear => exact clear_SizeInv c h
  | set_capacity mb => exact set_max_size_SizeInv c mb h
  | adjust t => exact adjust_SizeInv c t h

/-- C10: after every `ImageCache` operation (`set`, `evict_outside_range`,
`__delitem__`, `clear`, `set_max_size`, `adjust_cache_size`), the internal
byte counter `current_size` equals the sum of `len(value.tobytes())` over
the cached entries, and in particular is never negative; replacing an
existing key subtracts the old entry's bytes before adding the new ones, so
re-inserting a page never double-counts. -/
theorem C10_l2_byte_counter (c : ImageCache) (h : SizeInv c) : C10Concl c := by
  intro ops
  have hfold : SizeInv (ops.foldl applyL2OpX c) := by
    induction ops generalizing c with
    | nil => exact h
    | cons op rest ih => exact ih _ (l2x_step_size c op h)
  refine ⟨hfold.1, ?_⟩
  rw [hfold.1]
  exact sumBytes_nonneg _

/-- Witness for C10 at a concrete in-invariant state. -/
theorem C10_l2_byte_counter_witness : SizeInv imgW ∧ C10Concl imgW :=
  ⟨by decide, C10_l2_byte_counter imgW (by decide)⟩

/-- C8 counterexample: with dynamic resizing enabled (the default),
`set_max_size 0` sets the configured maximum to 0 bytes but leaves the
effective capacity `max_size` at 100 bytes and evicts nothing, so the
50-byte entry stays cached even though the new capacity is 0 — refuting
the claim that `set_max_size` always updates the effective capacity to the
new value and evicts until the total is under the new cap. -/
theorem C8_counterexample :
    (imgC8.set_max_size 0).max_cache_size = 0 ∧
    (imgC8.set_max_size 0).max_size = 100 ∧
    (imgC8.set_max_size 0).cache = [(0, { bytes := 50 })] ∧
    sumBytes (imgC8.set_max_size 0).cache = 50 := by
  decide

/-- C8 (amended): `set_max_size(new_mb)` sets the configured maximum
`max_cache_size` to `new_mb * 2^20`; it updates the *effective* capacity
`max_size` to that value only when dynamic resizing is disabled (otherwise
`max_size` is left unchanged); then it evicts least-recently-used entries
until the byte counter is at most the effective capacity (or the cache is
empty).  The surviving entries are a suffix (the most recent part) of the
original LRU order. -/
theorem C8_amended_set_max_size (c : ImageCache) (mb : Int) :
    (c.set_max_size mb).max_cache_size = mb * 1024 * 1024 ∧
    (c.set_max_size mb).max_size =
      (if c.dynamic_resizing then c.max_size else mb * 1024 * 1024) ∧
    ((c.set_max_size mb).current_size ≤ (c.set_max_size mb).max_size ∨
      (c.set_max_size mb).cache = []) ∧
    ∃ dropped, c.cache = dropped ++ (c.set_max_size mb).cache := by
  refine ⟨rfl, rfl, set_max_size_CapInv c mb, ?_⟩
  unfold ImageCache.set_max_size
  dsimp only
  rw [evictToCap_eq]
  obtain ⟨t, ht⟩ := evictForNeed_suffix 0
    (if c.dynamic_resizing then c.max_size else mb * 1024 * 1024) c.cache c.current_size
  exact ⟨t, ht.symm⟩

/-! ### Lemmas about the L1 victim selection -/

theorem maxBy_mem (f : TKey → Nat) (b : TKey) (l : List TKey) : maxBy f b l ∈ b :: l := by
  induction l generalizing b with
  | nil => simp [maxBy]
  | cons y ys ih =>
    simp only [maxBy]
    have h := ih (if f b < f y then y else b)
    rcases List.mem_cons.mp h with h1 | h1
    · rw [h1]
      split
      · simp
      · simp
    · simp only [List.mem_cons]
      right; right; exact h1

theorem maxBy_spec (f : TKey → Nat) (b : TKey) (l : List TKey) :
    ∃ pre post, b :: l = pre ++ (maxBy f b l) :: post ∧
      (∀ x ∈ pre, f x < f (maxBy f b l)) ∧
      (∀ x ∈ b :: l, f x ≤ f (maxBy f b l)) := by
  induction l generalizing b with
  | nil => exact ⟨[], [], rfl, by simp, by simp [maxBy]⟩
  | cons y ys ih =>
    by_cases hy : f b < f y
    · obtain ⟨pre, post, heq, hpre, hall⟩ := ih y
      simp only [maxBy, if_pos hy]
      refine ⟨b :: pre, post, ?_, ?_, ?_⟩
      · rw [List.cons_append, ← heq]
      · intro x hx
        rcases List.mem_cons.mp hx with h1 | h1
        · rw [h1]
          exact lt_of_lt_of_le hy (hall y (List.mem_cons_self y ys))
        · exact hpre x h1
      · intro x hx
        rcases List.mem_cons.mp hx with h1 | h1
        · rw [h1]
          exact le_of_lt (lt_of_lt_of_le hy (hall y (List.mem_cons_self y ys)))
        · exact hall x h1
    · obtain ⟨pre, post, heq, hpre, hall⟩ := ih b
      simp only [maxBy, if_neg hy]
      have hyb : f y ≤ f b := le_of_not_lt hy
      cases pre with
      | nil =>
        have hrb : maxBy f b ys = b := by
          have := heq
          simp only [List.nil_append] at this
          exact (List.cons.injEq _ _ _ _ ▸ this).1.symm
        have hpost : post = ys := by
          simp only [List.nil_append] at heq
          exact ((List.cons.injEq _ _ _ _ ▸ heq).2).symm
        refine ⟨[], y :: ys, ?_, by simp, ?_⟩
        · rw [List.nil_append, hrb]
        · intro x hx
          rcases List.mem_cons.mp hx with h1 | h1
          · rw [h1, hrb]
          · rw [hrb]
            rcases List.mem_cons.mp h1 with h2 | h2
            · rw [h2]; exact hyb
            · have := hall x (List.mem_cons_of_mem b h2)
              rw [hrb] at this
              exact this
      | cons p0 pre1 =>
        have hp0 : p0 = b := by
          have := heq
          simp only [List.cons_append] at this
          exact ((List.cons.injEq _ _ _ _ ▸ this).1).symm
        have hys : ys = pre1 ++ (maxBy f b ys) :: post := by
          have := heq
          simp only [List.cons_append] at this
          exact (List.cons.injEq _ _ _ _ ▸ this).2
        have hbmax : f b < f (maxBy f b ys) := by
          have h := hpre p0 (List.mem_cons_self p0 pre1)
          rw [hp0] at h
          exact h
        refine ⟨b :: y :: pre1, post, ?_, ?_, ?_⟩
        · rw [List.cons_append, List.cons_append, ← hys]
        · intro x hx
          rcases List.mem_cons.mp hx with h1 | h1
          · rw [h1]
            exact hbmax
          · rcases List.mem_cons.mp h1 with h2 | h2
            · rw [h2]
              exact lt_of_le_of_lt hyb hbmax
            · exact hpre x (List.mem_cons_of_mem p0 h2)
        · intro x hx
          rcases List.mem_cons.mp hx with h1 | h1
          · rw [h1]
            exact hall b (List.mem_cons_self b ys)
          · rcases List.mem_cons.mp h1 with h2 | h2
            · rw [h2]
              exact hyb.trans (hall b (List.mem_cons_self b ys))
            · exact hall x (List.mem_cons_of_mem b h2)

theorem mem_unpinnedKeys (t : TextureCache) (k : TKey) :
    k ∈ unpinnedKeys t ↔ k ∈ tkeys t.cache ∧ k ∉ t.pinned_keys := by
  simp [unpinnedKeys, List.mem_filter]

theorem selectVictim_unpinned (p : Int) (t : TextureCache) (far : TKey)
    (h : selectVictim p t = some far) : far ∈ unpinnedKeys t := by
  rcases hA : unpinnedKeys t with _ | ⟨u0, us⟩
  · simp [selectVictim, hA] at h
  · rcases hB : (u0 :: us).filter (fun k => (get_distance p k).isSome) with _ | ⟨v0, vs⟩
    · simp only [selectVictim, hA, hB, Option.some.injEq] at h
      rw [← h]
      exact List.mem_cons_self u0 us
    · simp only [selectVictim, hA, hB, Option.some.injEq] at h
      rw [← h]
      have hm : maxBy (distVal p) v0 vs ∈ v0 :: vs := maxBy_mem _ _ _
      rw [← hB] at hm
      exact (List.filter_sublist _).subset hm

theorem evictStep_some_spec (p : Int) (t t' : TextureCache)
    (h : evictStep p t = some t') :
    ∃ far, selectVictim p t = some far ∧
      t'.cache = t.cache.filter (fun e => e.1 != far) ∧
      t'.deleted_textures = t.deleted_textures ++ queueDeleted (t.cache.lookup far) ∧
      t'.pinned_keys = t.pinned_keys ∧ t'.max_size = t.max_size := by
  rcases hS : selectVictim p t with _ | far
  · simp [evictStep, hS] at h
  · simp only [evictStep, hS, Option.some.injEq] at h
    exact ⟨far, rfl, by rw [← h], by rw [← h], by rw [← h], by rw [← h]⟩

theorem evictStep_keeps_key (p : Int) (t t' : TextureCache)
    (h : evictStep p t = some t') (k : TKey)
    (hpin : k ∈ t.pinned_keys) (hmem : k ∈ tkeys t.cache) :
    k ∈ tkeys t'.cache ∧ t'.pinned_keys = t.pinned_keys := by
  obtain ⟨far, hsel, hc, _, hp, _⟩ := evictStep_some_spec p t t' h
  have hfarnp : far ∉ t.pinned_keys :=
    ((mem_unpinnedKeys t far).mp (selectVictim_unpinned p t far hsel)).2
  have hne : k ≠ far := fun hh => hfarnp (hh ▸ hpin)
  refine ⟨?_, hp⟩
  rw [hc]
  obtain ⟨e, he, hek⟩ := List.mem_map.mp hmem
  refine List.mem_map.mpr ⟨e, List.mem_filter.mpr ⟨he, ?_⟩, hek⟩
  simp only [bne_iff_ne, ne_eq, decide_eq_true_eq]
  rw [hek]
  exact hne

theorem evictLoop_keeps_key (p : Int) (fuel : Nat) (t : TextureCache) (k : TKey)
    (hpin : k ∈ t.pinned_keys) (hmem : k ∈ tkeys t.cache) :
    k ∈ tkeys (evictLoop p fuel t).cache ∧
      (evictLoop p fuel t).pinned_keys = t.pinned_keys := by
  induction fuel generalizing t with
  | zero => exact ⟨hmem, rfl⟩
  | succ f ih =>
    unfold evictLoop
    by_cases hgt : (t.cache.length : Int) > t.max_size
    · rw [if_pos hgt]
      rcases hstep : evictStep p t with _ | t1
      · exact ⟨hmem, rfl⟩
      · obtain ⟨hk1, hp1⟩ := evictStep_keeps_key p t t1 hstep k hpin hmem
        obtain ⟨hk2, hp2⟩ := ih t1 (by rw [hp1]; exact hpin) hk1
        exact ⟨hk2, hp2.trans hp1⟩
    · rw [if_neg hgt]
      exact ⟨hmem, rfl⟩

theorem evictLoop_pinned_eq (p : Int) (fuel : Nat) (t : TextureCache) :
    (evictLoop p fuel t).pinned_keys = t.pinned_keys := by
  induction fuel generalizing t with
  | zero => rfl
  | succ f ih =>
    unfold evictLoop
    by_cases hgt : (t.cache.length : Int) > t.max_size
    · rw [if_pos hgt]
      rcases hstep : evictStep p t with _ | t1
      · rfl
      · obtain ⟨far, _, _, _, hp, _⟩ := evictStep_some_spec p t t1 hstep
        rw [ih t1, hp]
    · rw [if_neg hgt]

theorem pin_cache_eq (t : TextureCache) (k : TKey) : (t.pin k).cache = t.cache := by
  unfold TextureCache.pin
  split
  · split
    · rfl
    · rfl
  · rfl

theorem set_pinned_eq (t : TextureCache) (p : Int) (k : TKey) (v : TexVal) :
    (t.set p k v).pinned_keys = t.pinned_keys := by
  unfold TextureCache.set
  split
  · rfl
  · exact evictLoop_pinned_eq p _ _

theorem tkeys_append (a b : List (TKey × TexVal)) : tkeys (a ++ b) = tkeys a ++ tkeys b := by
  simp [tkeys]

theorem evictLoop_le (p : Int) (fuel : Nat) (t : TextureCache)
    (h : (t.cache.length : Int) ≤ t.max_size) : evictLoop p fuel t = t := by
  cases fuel with
  | zero => rfl
  | succ f =>
    unfold evictLoop
    rw [if_neg (not_lt.mpr h)]

theorem get_distance_isSome (p : Int) (k : TKey) :
    (get_distance p k).isSome = (k.page).isSome := by
  cases hp : k.page <;> simp [get_distance, hp]

theorem length_filter_ne_key (l : List (TKey × TexVal)) (vic : TKey)
    (hnd : (tkeys l).Nodup) (hmem : vic ∈ tkeys l) :
    (l.filter (fun e => e.1 != vic)).length + 1 = l.length := by
  induction l with
  | nil => simp [tkeys] at hmem
  | cons e rest ih =>
    simp only [tkeys, List.map_cons, List.nodup_cons] at hnd
    rcases List.mem_cons.mp (show vic ∈ e.1 :: rest.map Prod.fst by
      simpa [tkeys] using hmem) with h1 | h1
    · have he1 : e.1 = vic := h1.symm
      have hb : (e.1 != vic) = false := by simp [he1]
      simp only [List.filter_cons, hb, Bool.false_eq_true, if_false]
      have hrest : rest.filter (fun e => e.1 != vic) = rest := by
        apply List.filter_eq_self.mpr
        intro x hx
        simp only [bne_iff_ne, ne_eq, decide_eq_true_eq]
        intro hxv
        apply hnd.1
        rw [he1, ← hxv]
        exact List.mem_map_of_mem Prod.fst hx
      rw [hrest]
      simp
    · have hne : e.1 ≠ vic := fun hh => hnd.1 (hh ▸ h1)
      have hb : (e.1 != vic) = true := by simp [bne_iff_ne, hne]
      simp only [List.filter_cons, hb, if_true, List.length_cons]
      have := ih hnd.2 (by simpa [tkeys] using h1)
      omega

theorem evict_if_needed_one_step (p : Int) (tg tg1 : TextureCache)
    (hgt : (tg.cache.length : Int) > tg.max_size)
    (hstep : evictStep p tg = some tg1)
    (hle : (tg1.cache.length : Int) ≤ tg1.max_size) :
    TextureCache.evict_if_needed tg p = tg1 := by
  have hne : tg.cache ≠ [] := by
    obtain ⟨far, hsel, _⟩ := evictStep_some_spec p tg tg1 hstep
    have hm := ((mem_unpinnedKeys tg far).mp (selectVictim_unpinned p tg far hsel)).1
    intro hnil
    rw [hnil] at hm
    simp [tkeys] at hm
  have hpos : 0 < tg.cache.length := List.length_pos.mpr hne
  obtain ⟨n, hn⟩ : ∃ n, tg.cache.length = n + 1 := ⟨tg.cache.length - 1, by omega⟩
  unfold TextureCache.evict_if_needed
  rw [hn]
  unfold evictLoop
  rw [if_pos hgt]
  simp only [hstep]
  exact evictLoop_le p n tg1 hle

theorem evict_if_needed_break (p : Int) (tg : TextureCache)
    (hstep : evictStep p tg = none) :
    TextureCache.evict_if_needed tg p = tg := by
  unfold TextureCache.evict_if_needed
  cases hl : tg.cache.length with
  | zero => rfl
  | succ n =>
    unfold evictLoop
    split
    · simp only [hstep]
    · rfl

theorem evict_outside_keeps_pinned (t : TextureCache) (s e : Int) (k : TKey)
    (hpin : k ∈ t.pinned_keys) (hmem : k ∈ tkeys t.cache) :
    k ∈ tkeys (t.evict_outside_range s e).cache := by
  unfold TextureCache.evict_outside_range
  obtain ⟨x, hx, hxk⟩ := List.mem_map.mp hmem
  refine List.mem_map.mpr ⟨x, List.mem_filter.mpr ⟨hx, ?_⟩, hxk⟩
  have hc : t.pinned_keys.contains x.1 = true := by
    rw [hxk]
    simpa using hpin
  simp only [hc, if_true]

/-! ### Claims C9, C7, C2 -/

/-- C9 counterexample: pin a cached key, then `clear()` — the pinned key's
texture id (21) appears in the next `get_deleted_textures()` drain, so a
key pinned at the time of the operation is not kept out of the deletion
queue. -/
theorem C9_counterexample_clear_drains_pinned :
    k9 ∈ (t9.pin k9).pinned_keys ∧
      21 ∈ (((t9.pin k9).clear).get_deleted_textures).1 := by
  decide

/-- C9 (amended): under `pin`, `unpin`, `set`, `evict_outside_range`,
`set_max_size` and `get_deleted_textures`, a key pinned at the time of the
operation is never evicted from the L1 cache; `clear()`, however, queues
the texture id of every cached entry — pinned entries included — so a
pinned key's id does appear in the drain output after `clear`. -/
theorem C9_amended_pinned_never_evicted_except_clear (t : TextureCache) (k : TKey)
    (hpin : k ∈ t.pinned_keys) (hmem : k ∈ tkeys t.cache) :
    C9Concl t k := by
  constructor
  · intro op hop
    cases op with
    | pin k' =>
      show k ∈ tkeys (t.pin k').cache
      rw [pin_cache_eq]
      exact hmem
    | unpin k' => exact hmem
    | set p' k' v' =>
      show k ∈ tkeys (t.set p' k' v').cache
      unfold TextureCache.set
      by_cases hk' : k' ∈ tkeys t.cache
      · rw [if_pos hk']
        by_cases hkk : k = k'
        · simp [tkeys, hkk]
        · obtain ⟨x, hx, hxk⟩ := List.mem_map.mp hmem
          refine List.mem_map.mpr
            ⟨x, List.mem_append_left _ (List.mem_filter.mpr ⟨hx, ?_⟩), hxk⟩
          simp only [bne_iff_ne, ne_eq, decide_eq_true_eq]
          rw [hxk]
          exact hkk
      · rw [if_neg hk']
        have hmem' : k ∈ tkeys (({ t with cache := t.cache ++ [(k', v')] }) :
            TextureCache).cache := by
          show k ∈ tkeys (t.cache ++ [(k', v')])
          rw [tkeys_append]
          exact List.mem_append_left _ hmem
        have hpin' : k ∈ (({ t with cache := t.cache ++ [(k', v')] }) :
            TextureCache).pinned_keys := hpin
        unfold TextureCache.evict_if_needed
        exact (evictLoop_keeps_key p' _
          ({ t with cache := t.cache ++ [(k', v')] }) k hpin' hmem').1
    | evict_outside s e => exact evict_outside_keeps_pinned t s e k hpin hmem
    | set_capacity p' n =>
      show k ∈ tkeys (t.set_max_size p' n).cache
      unfold TextureCache.set_max_size TextureCache.evict_if_needed
      have hpin' : k ∈ (({ t with max_size := n }) : TextureCache).pinned_keys := hpin
      have hmem' : k ∈ tkeys (({ t with max_size := n }) : TextureCache).cache := hmem
      exact (evictLoop_keeps_key p' _ ({ t with max_size := n }) k hpin' hmem').1
    | drain => exact hmem
    | clear => exact absurd rfl hop
  · intro i hmem2
    show i ∈ (t.clear).deleted_textures
    unfold TextureCache.clear
    have hlen : t.cache.length > 0 := by
      cases hc : t.cache with
      | nil => rw [hc] at hmem2; simp at hmem2
      | cons a as => simp [hc]
    rw [if_pos hlen]
    refine List.mem_append_right _ ?_
    exact List.mem_filterMap.mpr ⟨(k, { texture_id := some i }), hmem2, rfl⟩

/-- Witness for the amended C9 at a concrete state with a pinned cached key. -/
theorem C9_amended_witness :
    (kNear ∈ tW.pinned_keys ∧ kNear ∈ tkeys tW.cache) ∧ C9Concl tW kNear :=
  ⟨by decide, C9_amended_pinned_never_evicted_except_clear tW kNear (by decide) (by decide)⟩

/-- C7 counterexample: `pin` on a missing key records nothing, and the key
does *not* stick: after `pin(kFar)` on an empty cache, inserting `kFar`
leaves it unpinned, and the next insert (capacity 1, current page 0)
evicts `kFar` and queues its texture id 7 — refuting the claim that a key
pinned while missing is ineligible for eviction once inserted. -/
theorem C7_counterexample_pin_does_not_stick :
    kFar ∉ ((texEmpty.pin kFar).set 0 kFar { texture_id := some 7 }).pinned_keys ∧
    kFar ∉ tkeys (((texEmpty.pin kFar).set 0 kFar { texture_id := some 7 }).set 0
      kNear { texture_id := some 8 }).cache ∧
    7 ∈ (((texEmpty.pin kFar).set 0 kFar { texture_id := some 7 }).set 0
      kNear { texture_id := some 8 }).deleted_textures := by
  decide

/-- C7 (amended): `pin(key)` for a key not in the L1 cache is a complete
no-op — the key is not recorded in the pinned set, so it does *not* stick:
after a subsequent insert of that key it is still unpinned (hence
evictable) until `pin` is called again. -/
theorem C7_amended_pin_missing_is_noop (t : TextureCache) (k : TKey)
    (h : k ∉ tkeys t.cache) (p : Int) (v : TexVal) :
    t.pin k = t ∧ ((t.pin k).set p k v).pinned_keys = t.pinned_keys := by
  have h1 : t.pin k = t := by
    unfold TextureCache.pin
    rw [if_neg h]
  refine ⟨h1, ?_⟩
  rw [h1]
  exact set_pinned_eq t p k v

/-- Witness for the amended C7 at a concrete missing key. -/
theorem C7_amended_witness :
    kFar ∉ tkeys texEmpty.cache ∧
      (texEmpty.pin kFar = texEmpty ∧
        ((texEmpty.pin kFar).set 0 kFar { texture_id := some 7 }).pinned_keys =
          texEmpty.pinned_keys) :=
  ⟨by decide, C7_amended_pin_missing_is_noop texEmpty kFar (by decide) 0 _⟩

/-- C2: when inserting a fresh key into the L1 TextureCache makes the item
count exceed the capacity, the evicted victim is the first key with
maximal parsed-page distance `|page − current_page|` among the non-pinned
cached keys in LRU order — so ties go to the oldest entry; when the count
still fits, nothing is evicted; and when every cached key is pinned the
eviction loop stops without removing anything.  Hypotheses: the key is
new, cached keys are distinct, the cache was within capacity, and every
key (the new one included) parses to a page index, as the claim assumes. -/
theorem C2_l1_distance_eviction (t : TextureCache) (p : Int) (k : TKey) (v : TexVal)
    (hfresh : k ∉ tkeys t.cache)
    (hnd : (tkeys t.cache).Nodup)
    (hcount : (t.cache.length : Int) ≤ t.max_size)
    (hparse : ∀ x ∈ tkeys (t.cache ++ [(k, v)]), (x.page).isSome = true) :
    C2Concl t p k v := by
  have hset : t.set p k v =
      TextureCache.evict_if_needed { t with cache := t.cache ++ [(k, v)] } p := by
    unfold TextureCache.set
    rw [if_neg hfresh]
  refine ⟨?_, ?_⟩
  · intro hle
    rw [hset]
    unfold TextureCache.evict_if_needed
    rw [evictLoop_le]
    show ((t.cache ++ [(k, v)]).length : Int) ≤ t.max_size
    simp only [List.length_append, List.length_cons, List.length_nil]
    push_cast
    omega
  · intro hgt
    have hguard : ((({ t with cache := t.cache ++ [(k, v)] } :
        TextureCache)).cache.length : Int) >
        ({ t with cache := t.cache ++ [(k, v)] } : TextureCache).max_size := by
      show t.max_size < ((t.cache ++ [(k, v)]).length : Int)
      simp only [List.length_append, List.length_cons, List.length_nil]
      push_cast
      omega
    constructor
    · intro hup
      have hstep : evictStep p ({ t with cache := t.cache ++ [(k, v)] }) = none := by
        simp only [evictStep, selectVictim, hup]
      rw [hset, evict_if_needed_break p _ hstep]
    · intro u0 us hup
      have hvalid : (u0 :: us).filter (fun x => (get_distance p x).isSome) = u0 :: us := by
        apply List.filter_eq_self.mpr
        intro x hx
        have hx' : x ∈ unpinnedKeys ({ t with cache := t.cache ++ [(k, v)] }) := by
          rw [hup]; exact hx
        have hxk : x ∈ tkeys (t.cache ++ [(k, v)]) := ((mem_unpinnedKeys _ _).mp hx').1
        rw [get_distance_isSome]
        exact hparse x hxk
      have hsel : selectVictim p ({ t with cache := t.cache ++ [(k, v)] }) =
          some (maxBy (distVal p) u0 us) := by
        simp only [selectVictim, hup, hvalid]
      have hstep : evictStep p ({ t with cache := t.cache ++ [(k, v)] }) =
          some ({ t with
            cache := (t.cache ++ [(k, v)]).filter
              (fun e => e.1 != maxBy (distVal p) u0 us),
            deleted_textures := t.deleted_textures ++
              queueDeleted ((t.cache ++ [(k, v)]).lookup (maxBy (distVal p) u0 us)) }) := by
        simp only [evictStep, hsel]
      obtain ⟨pre, post, heq, hpre, hall⟩ := maxBy_spec (distVal p) u0 us
      have hndg : (tkeys (t.cache ++ [(k, v)])).Nodup := by
        rw [tkeys_append]
        refine List.Nodup.append hnd (by simp [tkeys]) ?_
        intro a ha hb
        have hak : a = k := by simpa [tkeys] using hb
        exact hfresh (hak ▸ ha)
      have hvicmem : maxBy (distVal p) u0 us ∈ tkeys (t.cache ++ [(k, v)]) := by
        have h1 : maxBy (distVal p) u0 us ∈ u0 :: us := maxBy_mem _ _ _
        have h2 : maxBy (distVal p) u0 us ∈
            unpinnedKeys ({ t with cache := t.cache ++ [(k, v)] }) := by
          rw [hup]; exact h1
        exact ((mem_unpinnedKeys _ _).mp h2).1
      have hlen : ((t.cache ++ [(k, v)]).filter
          (fun e => e.1 != maxBy (distVal p) u0 us)).length + 1 =
          (t.cache ++ [(k, v)]).length := length_filter_ne_key _ _ hndg hvicmem
      have hg2 : (t.cache ++ [(k, v)]).length = t.cache.length + 1 := by simp
      have hle1 : ((((t.cache ++ [(k, v)]).filter
          (fun e => e.1 != maxBy (distVal p) u0 us)).length : Int)) ≤ t.max_size := by
        omega
      have hfinal := evict_if_needed_one_step p _ _ hguard hstep hle1
      rw [hset, hfinal]
      exact ⟨maxBy (distVal p) u0 us, pre, post, heq, hall, hpre, rfl, rfl⟩

/-- Witness for C2 at a concrete over-capacity insert: capacity 1, cached
far page 10, current page 0, inserting page 0. -/
theorem C2_l1_distance_eviction_witness :
    (kNear ∉ tkeys tC2.cache ∧ (tkeys tC2.cache).Nodup ∧
      (tC2.cache.length : Int) ≤ tC2.max_size ∧
      ∀ x ∈ tkeys (tC2.cache ++ [(kNear, vC2)]), (x.page).isSome = true) ∧
    C2Concl tC2 0 kNear vC2 :=
  ⟨by decide,
    C2_l1_distance_eviction tC2 0 kNear vC2 (by decide) (by decide) (by decide) (by decide)⟩

/-! ### Claims C3, C4, C5, C6 -/

/-- C3: a Prefetch-priority fetch on an archive-mode loader whose L3 byte
cache misses the requested entry returns `None` immediately: the decision
of `get_image_data` is `ret_none` — never `wait` (no wait on the L3
condition variable) and never `fallback` (no synchronous archive read) —
whatever the extractor status is. -/
theorem C3_archive_prefetch_nonblocking (L : FileLoaderSt) (fp : String)
    (harch : L.load_type = LoadType.archive)
    (hmiss : fp ∉ L.l3cache) :
    get_image_data_decision L fp PRIORITY_PREFETCH = FetchAction.ret_none := by
  unfold get_image_data_decision
  rw [if_neg hmiss]
  rw [if_neg (fun h => by
    have := h.2.2
    simp [PRIORITY_PREFETCH, PRIORITY_DISPLAY] at this)]
  rw [if_pos ⟨rfl, harch⟩]

/-- Witness for C3: an archive loader mid-extraction with an empty L3
cache. -/
theorem C3_archive_prefetch_nonblocking_witness :
    (loaderW.load_type = LoadType.archive ∧ "001.jpg" ∉ loaderW.l3cache) ∧
      get_image_data_decision loaderW "001.jpg" PRIORITY_PREFETCH = FetchAction.ret_none :=
  ⟨by constructor
      · rfl
      · simp [loaderW],
    C3_archive_prefetch_nonblocking loaderW "001.jpg" rfl (by simp [loaderW])⟩

/-- C4: a decode result or decode error delivered with a FileLoader id
different from the worker's current loader id is silently dropped: the L2
pixel cache is unchanged, no `image_loaded` signal fires (the only path
feeding the L1 texture upload), and no error is surfaced.  Moreover
`get_next_file_loader_id` returns an id strictly greater than the counter,
hence different from every previously issued id, so after opening a new
path every result issued under the old loader carries a mismatched id. -/
theorem C4_generation_isolation (w : WorkerState) (decoded : Option PImage)
    (fpath msg : String) (index : Int) (lid : Nat)
    (hstale : w.loaderId ≠ some lid) :
    (onRunnableFinished w decoded index lid).image_cache = w.image_cache ∧
    (onRunnableFinished w decoded index lid).emitted_images = w.emitted_images ∧
    (onRunnableFinished w decoded index lid).emitted_errors = w.emitted_errors ∧
    (onRunnableError w fpath msg index lid).image_cache = w.image_cache ∧
    (onRunnableError w fpath msg index lid).emitted_images = w.emitted_images ∧
    (onRunnableError w fpath msg index lid).emitted_errors = w.emitted_errors ∧
    (∀ counter old : Nat, old ≤ counter → (get_next_file_loader_id counter).1 ≠ old) := by
  have hcond : w.running = false ∨ w.loaderId.isNone ∨ w.loaderId ≠ some lid :=
    Or.inr (Or.inr hstale)
  unfold onRunnableFinished onRunnableError
  rw [if_pos hcond, if_pos hcond]
  refine ⟨rfl, rfl, rfl, rfl, rfl, rfl, ?_⟩
  intro counter old hle
  unfold get_next_file_loader_id
  simp only
  omega

/-- Witness for C4: the current loader has id 2, the delivered result
carries id 1. -/
theorem C4_generation_isolation_witness :
    workerW.loaderId ≠ some 1 ∧
      ((onRunnableFinished workerW (some { bytes := 4 }) 0 1).image_cache =
          workerW.image_cache ∧
        (onRunnableFinished workerW (some { bytes := 4 }) 0 1).emitted_images =
          workerW.emitted_images ∧
        (onRunnableFinished workerW (some { bytes := 4 }) 0 1).emitted_errors =
          workerW.emitted_errors ∧
        (onRunnableError workerW "a.png" "boom" 0 1).image_cache = workerW.image_cache ∧
        (onRunnableError workerW "a.png" "boom" 0 1).emitted_images =
          workerW.emitted_images ∧
        (onRunnableError workerW "a.png" "boom" 0 1).emitted_errors =
          workerW.emitted_errors ∧
        (∀ counter old : Nat, old ≤ counter →
          (get_next_file_loader_id counter).1 ≠ old)) :=
  ⟨by decide,
    C4_generation_isolation workerW (some { bytes := 4 }) "a.png" "boom" 0 1 (by decide)⟩

theorem mem_intRange (a b i : Int) : i ∈ intRange a b ↔ a ≤ i ∧ i ≤ b := by
  constructor
  · intro h
    obtain ⟨j, hj, hji⟩ := List.mem_map.mp h
    rw [List.mem_range] at hj
    omega
  · intro h
    refine List.mem_map.mpr ⟨(i - a).toNat, ?_, ?_⟩
    · rw [List.mem_range]
      omega
    · omega

theorem mem_basePages (p m b : Int) (s : Bool) :
    b ∈ basePages p m s ↔ b = p ∨ (s = true ∧ p + 1 ≤ m ∧ b = p + 1) := by
  unfold basePages
  by_cases hs : s = true ∧ p + 1 ≤ m
  · obtain ⟨hs1, hs2⟩ := hs
    have hc : (s && decide (p + 1 ≤ m)) = true := by simp [hs1, hs2]
    rw [hc]
    simp [hs1, hs2]
  · have hc : (s && decide (p + 1 ≤ m)) = false := by
      cases s with
      | false => simp
      | true =>
        simp only [Bool.true_and, decide_eq_false_iff_not]
        intro hpm
        exact hs ⟨rfl, hpm⟩
    rw [hc]
    simp only [Bool.false_eq_true, if_false, List.append_nil, List.mem_singleton]
    constructor
    · exact Or.inl
    · rintro (h | ⟨h1, h2, _⟩)
      · exact h
      · exact absurd ⟨h1, h2⟩ hs

/-- C5: for current page `p`, radius `R ≥ 0`, list length `N ≥ 1`
(`max_index = N − 1`) and spread flag `s`, the prefetcher's page set is
sorted without duplicates and contains exactly the union over the base
pages (`p`, plus `p+1` in spread mode when `p+1 ≤ N−1`) of the clamped
intervals `[max(0, b−R), min(N−1, b+R)]`. -/
theorem C5_prefetch_page_set (p R N : Int) (s : Bool) (_hR : 0 ≤ R) (_hN : 1 ≤ N) :
    List.Sorted (· < ·) (calculate_pages_for_prefetch p R (N - 1) s) ∧
    ∀ i : Int, i ∈ calculate_pages_for_prefetch p R (N - 1) s ↔
      ∃ b, (b = p ∨ (s = true ∧ p + 1 ≤ N - 1 ∧ b = p + 1)) ∧
        max 0 (b - R) ≤ i ∧ i ≤ min (N - 1) (b + R) := by
  constructor
  · exact Finset.sort_sorted_lt _
  · intro i
    unfold calculate_pages_for_prefetch
    rw [Finset.mem_sort]
    simp only [List.mem_toFinset, List.mem_flatMap, mem_intRange, mem_basePages]

/-- Witness for C5 in spread mode near the end of a 12-page list. -/
theorem C5_prefetch_page_set_witness :
    ((0 : Int) ≤ 3 ∧ (1 : Int) ≤ 12) ∧
      (List.Sorted (· < ·) (calculate_pages_for_prefetch 9 3 (12 - 1) true) ∧
        ∀ i : Int, i ∈ calculate_pages_for_prefetch 9 3 (12 - 1) true ↔
          ∃ b, (b = 9 ∨ (true = true ∧ (9 : Int) + 1 ≤ 12 - 1 ∧ b = 9 + 1)) ∧
            max 0 (b - 3) ≤ i ∧ i ≤ min (12 - 1) (b + 3)) :=
  ⟨by decide, C5_prefetch_page_set 9 3 12 true (by decide) (by decide)⟩

/-- C6 counterexample: a configuration with `cpu_max_prefetch_pages = 2`
and `gpu_max_prefetch_pages = 100` passes `load_settings` validation
unchanged (effective gpu radius 100 > cpu radius 2), and the prefetcher's
settings-update path adopts `(1, 50)` verbatim — no `gpu ≤ cpu` clamp
exists on either path, refuting the claim. -/
theorem C6_counterexample_no_clamp :
    load_prefetch_settings
        { max_prefetch_pages := .absent, cpu_max_prefetch_pages := .int 2,
          gpu_texture_cache_size := .absent, gpu_cache_page_count := .absent,
          gpu_max_prefetch_pages := .int 100 } = (2, 100) ∧
      ¬((100 : Int) ≤ 2) ∧
      update_prefetch_settings (10, 9) (some 1, some 50) = (1, 50) ∧
      ¬((50 : Int) ≤ 1) := by
  refine ⟨rfl, by decide, rfl, by decide⟩

theorem validateNonNegInt_nonneg (v : JVal) (d : Int) (hd : 0 ≤ d) :
    0 ≤ validateNonNegInt v d := by
  cases v with
  | int n =>
    show 0 ≤ (if 0 ≤ n then n else d)
    split
    · next h => exact h
    · exact hd
  | nonint => exact hd
  | absent => exact hd

/-- C6 (amended): the configuration layer validates the two prefetch page
counts independently — after legacy-key migration each must be a
non-negative int, otherwise it is reset to its default (cpu 10, gpu 9) —
so both effective radii are always ≥ 0 after `load_settings`; but no
`gpu ≤ cpu` relation is enforced anywhere: the prefetcher's
`update_prefetch_settings` adopts supplied values unchanged. -/
theorem C6_amended_independent_validation (c : PrefetchCfg) :
    0 ≤ (load_prefetch_settings c).1 ∧ 0 ≤ (load_prefetch_settings c).2 ∧
    (∀ cur : Int × Int, ∀ a b : Int,
      update_prefetch_settings cur (some a, some b) = (a, b)) := by
  refine ⟨?_, ?_, fun cur a b => rfl⟩
  · exact validateNonNegInt_nonneg _ 10 (by norm_num)
  · exact validateNonNegInt_nonneg _ 9 (by norm_num)

end HayateViewer
